import Mathlib

/-!
Verification development for the MusicLetter typing-toy repository.

The definitions below are shallow embeddings of the event/playback core of
the repository (the file `src/unnamed/part_000`, with `src/app.js` an earlier
near-duplicate).  Seconds and pixels are modelled as rationals; the DOM glyph
measurer is an abstract width function `Char → ℚ`.
-/

/-- Embedding of `playbackTuning.maxPixelsPerSecond` (source `part_000`, line 44). -/
def maxPixelsPerSecond : ℚ := 700

/-- Embedding of `playbackTuning.minSegmentSec` (source `part_000`, line 45). -/
def minSegmentSec : ℚ := 12/100

/-- Embedding of `playbackTuning.minTimeBetweenNotes` default 0.08 s (source `part_000`, line 51). -/
def minTimeBetweenNotes : ℚ := 8/100

/-- Embedding of `playbackTuning.maxTimeBetweenNotes` default 2.0 s (source `part_000`, line 52). -/
def maxTimeBetweenNotes : ℚ := 2

/-- Embedding of `playheadPresets.diamond.speedRatio` (source `part_000`, line 1484). -/
def diamondSpeedRatio : ℚ := 11/10

/-- First pass of `playSequence` (source `part_000`, lines 807-814): each
note-bearing event's raw timestamp is replaced by
`t = max(0, eventTime - firstEventTime)`, the first such event serving as
origin. -/
def relTimes : List ℚ → List ℚ
  | [] => []
  | t0 :: rest => (t0 :: rest).map (fun t => max 0 (t - t0))

/-- Second pass of `playSequence` (source `part_000`, lines 817-827): walking
in order from the second entry, a gap below `minT` is pulled to exactly
`prev + minT` and a gap above `maxT` is pulled to `prev + maxT`; `prev` is the
already-smoothed previous time. -/
def smoothFrom (minT maxT : ℚ) (prev : ℚ) : List ℚ → List ℚ
  | [] => []
  | t :: rest =>
      let t2 := if t - prev < minT then prev + minT
                else if maxT < t - prev then prev + maxT
                else t
      t2 :: smoothFrom minT maxT t2 rest

/-- The smoothed schedule built by `playSequence` from the raw timestamps of
the note-bearing events: relative times followed by the in-order smoothing
pass (the first entry is left untouched, as the JS loop starts at `i = 1`). -/
def smoothSchedule (minT maxT : ℚ) (ts : List ℚ) : List ℚ :=
  match relTimes ts with
  | [] => []
  | t0 :: rest => t0 :: smoothFrom minT maxT t0 rest

lemma smoothFrom_chain (minT maxT : ℚ) (hmm : minT ≤ maxT) :
    ∀ (l : List ℚ) (prev : ℚ),
      List.Chain' (fun a b => minT ≤ b - a ∧ b - a ≤ maxT)
        (prev :: smoothFrom minT maxT prev l) := by
  intro l
  induction l with
  | nil => intro prev; simp [smoothFrom]
  | cons t rest ih =>
      intro prev
      rw [smoothFrom]
      refine List.chain'_cons.mpr ⟨?_, ih _⟩
      by_cases h1 : t - prev < minT
      · simp only [if_pos h1]
        constructor <;> linarith
      · by_cases h2 : maxT < t - prev
        · simp only [if_neg h1, if_pos h2]
          constructor <;> linarith
        · simp only [if_neg h1, if_neg h2]
          constructor <;> linarith

/-- Claim C1: for a list of raw note-event timestamps that is strictly
increasing, the schedule produced by `playSequence` (relative times
`max 0 (t - t0)` followed by the in-order smoothing pass) has every
consecutive gap within `[minT, maxT]`, is strictly increasing, and starts at
time 0.  The repository defaults are `minT = 0.08`, `maxT = 2.0`. -/
theorem playSequence_smoothed_gaps (minT maxT : ℚ) (hmin : 0 < minT)
    (hmm : minT ≤ maxT) (ts : List ℚ) (hinc : ts.Chain' (· < ·)) :
    (smoothSchedule minT maxT ts).Chain' (fun a b => minT ≤ b - a ∧ b - a ≤ maxT)
    ∧ (smoothSchedule minT maxT ts).Chain' (· < ·)
    ∧ (smoothSchedule minT maxT ts).head? = if ts = [] then none else some 0 := by
  match ts with
  | [] => simp [smoothSchedule, relTimes]
  | t0 :: rest =>
      have hrel : relTimes (t0 :: rest) =
          max 0 (t0 - t0) :: rest.map (fun t => max 0 (t - t0)) := by
        simp [relTimes]
      have h0 : max 0 (t0 - t0) = (0 : ℚ) := by simp
      have hs : smoothSchedule minT maxT (t0 :: rest) =
          0 :: smoothFrom minT maxT 0 (rest.map (fun t => max 0 (t - t0))) := by
        rw [smoothSchedule, hrel, h0]
      have hchain := smoothFrom_chain minT maxT hmm (rest.map (fun t => max 0 (t - t0))) 0
      refine ⟨?_, ?_, ?_⟩
      · rw [hs]; exact hchain
      · rw [hs]
        refine List.Chain'.imp ?_ hchain
        intro a b hab
        linarith [hab.1]
      · rw [hs]; simp

/-- Witness for C1 at the concrete strictly increasing input `[0, 1, 5]` with
the default thresholds 0.08 and 2.0. -/
theorem playSequence_smoothed_gaps_witness :
    (smoothSchedule (8/100) 2 [0, 1, 5]).Chain'
        (fun a b => 8/100 ≤ b - a ∧ b - a ≤ 2)
    ∧ (smoothSchedule (8/100) 2 [0, 1, 5]).Chain' (· < ·)
    ∧ (smoothSchedule (8/100) 2 [0, 1, 5]).head?
        = if ([0, 1, 5] : List ℚ) = [] then none else some 0 :=
  playSequence_smoothed_gaps (8/100) 2 (by norm_num) (by norm_num) [0, 1, 5]
    (by norm_num [List.chain'_cons])

/-- Segment duration before the speed multiplier (source `part_000`, lines
894-896): the maximum of the proportional time share of the segment, the
minimum-duration floor `minSegmentSec`, and the speed cap
`dist / maxPixelsPerSecond`.  `dist` is the Euclidean pixel distance
`Math.hypot(dx, dy)` of the segment, modelled as a nonnegative rational
parameter. -/
def segDurationRaw (share dist : ℚ) : ℚ :=
  max minSegmentSec (max share (dist / maxPixelsPerSecond))

/-- Effective segment duration (source `part_000`, line 897): the clamped
duration divided by the user-adjustable playhead speed ratio
(`state.playhead.speedRatio`, 0.85 to 1.1 over the presets). -/
def segDuration (share dist speedRatio : ℚ) : ℚ :=
  segDurationRaw share dist / speedRatio

/-- Counterexample to C2 as stated: with the selectable `diamond` playhead
preset (`speedRatio = 1.1`) a segment of zero time share and zero distance
gets effective duration `0.12 / 1.1 < 0.12`, violating the claimed floor
`duration ≥ minSegmentSec`. -/
theorem segDuration_floor_counterexample :
    segDuration 0 0 diamondSpeedRatio < minSegmentSec := by
  norm_num [segDuration, segDurationRaw, minSegmentSec, maxPixelsPerSecond,
    diamondSpeedRatio]

/-- Claim C2 as amended: the clamped-then-divided segment duration satisfies
`duration ≥ minSegmentSec` and `dist / duration ≤ maxPixelsPerSecond`
whenever the user speed multiplier is at most 1 (presets with ratio above 1,
`star` 1.05 and `diamond` 1.1, scale the two bounds by the ratio instead). -/
theorem segDuration_bounds_of_speedRatio_le_one (share dist r : ℚ)
    (hd : 0 ≤ dist) (hr0 : 0 < r) (hr1 : r ≤ 1) :
    minSegmentSec ≤ segDuration share dist r
    ∧ dist / segDuration share dist r ≤ maxPixelsPerSecond := by
  have hminpos : (0 : ℚ) < minSegmentSec := by norm_num [minSegmentSec]
  have hraw_min : minSegmentSec ≤ segDurationRaw share dist := le_max_left _ _
  have hraw_pos : 0 < segDurationRaw share dist := lt_of_lt_of_le hminpos hraw_min
  have hraw_speed : dist / maxPixelsPerSecond ≤ segDurationRaw share dist :=
    le_trans (le_max_right _ _) (le_max_right _ _)
  have hppos : (0 : ℚ) < maxPixelsPerSecond := by norm_num [maxPixelsPerSecond]
  have hdist_le : dist ≤ segDurationRaw share dist * maxPixelsPerSecond := by
    have := (div_le_iff₀ hppos).mp hraw_speed
    linarith
  have hge : segDurationRaw share dist ≤ segDuration share dist r := by
    rw [segDuration, le_div_iff₀ hr0]
    nlinarith
  have hdurpos : 0 < segDuration share dist r := lt_of_lt_of_le hraw_pos hge
  constructor
  · exact le_trans hraw_min hge
  · rw [div_le_iff₀ hdurpos]
    nlinarith

/-- Witness for the amended C2 at a zero-length, zero-gap segment with the
default speed ratio 1. -/
theorem segDuration_bounds_witness :
    minSegmentSec ≤ segDuration 0 0 1
    ∧ (0 : ℚ) / segDuration 0 0 1 ≤ maxPixelsPerSecond :=
  segDuration_bounds_of_speedRatio_le_one 0 0 1 (by norm_num) (by norm_num)
    (by norm_num)

/-- The four alignment modes of `state.align` (source `part_000`, line 25). -/
inductive Align
  | left
  | center
  | right
  | justify
deriving DecidableEq

/-- One measured glyph of a layout line: the character together with the width
returned by `measureChar` for it (base width plus letter-spacing). -/
structure Glyph where
  char : Char
  width : ℚ
deriving DecidableEq

/-- One output line of the line-building loop of `layoutEventsAligned`
(source `part_000`, lines 481-502): the glyphs that landed on the line and the
accumulated total width. -/
structure Line where
  glyphs : List Glyph
  total : ℚ
deriving DecidableEq

/-- A layout position for one glyph. -/
structure Pos where
  x : ℚ
  y : ℚ
deriving DecidableEq

/-- Total measured width of a list of glyphs. -/
def sumWidths (gs : List Glyph) : ℚ := (gs.map (fun g => g.width)).sum

/-- Line building loop of `layoutEventsAligned` (source `part_000`, lines
486-502): a newline always closes the current line; otherwise the next
character's measured width `w` starts a new line exactly when the line is
nonempty and `currentWidth + w > maxWidth`; the final line is always pushed.
The `measure` parameter embeds `measureChar(container, ch, style)`. -/
def buildLines (maxWidth : ℚ) (measure : Char → ℚ) :
    List Char → List Glyph → ℚ → List Line
  | [], cur, curW => [⟨cur, curW⟩]
  | c :: rest, cur, curW =>
      if c = '\n' then
        ⟨cur, curW⟩ :: buildLines maxWidth measure rest [] 0
      else
        let w := measure c
        if cur ≠ [] ∧ maxWidth < curW + w then
          ⟨cur, curW⟩ :: buildLines maxWidth measure rest [⟨c, w⟩] w
        else
          buildLines maxWidth measure rest (cur ++ [⟨c, w⟩]) (curW + w)

/-- Per-line starting x and extra inter-glyph gap of `layoutEventsAligned`
(source `part_000`, lines 513-522): left keeps both 0; center and right shift
the start; justify on a non-final line with more than one glyph spreads
`max(0, (maxWidth - total) / (glyphs.length - 1))` into every gap. -/
def lineParams (align : Align) (maxWidth : ℚ) (line : Line) (isLast : Bool) :
    ℚ × ℚ :=
  match align with
  | .left => (0, 0)
  | .center => (max 0 ((maxWidth - line.total) / 2), 0)
  | .right => (max 0 (maxWidth - line.total), 0)
  | .justify =>
      if isLast = false ∧ 1 < line.glyphs.length then
        (0, max 0 ((maxWidth - line.total) / ((line.glyphs.length : ℚ) - 1)))
      else (0, 0)

/-- Inner glyph loop of `layoutEventsAligned` (source `part_000`, lines
523-527): emit the running x for each glyph, then advance by the glyph width
plus the extra gap except after the last glyph of the line. -/
def placeRow (y : ℚ) (extraGap : ℚ) : ℚ → List Glyph → List (Glyph × Pos)
  | _, [] => []
  | x, g :: rest =>
      (g, ⟨x, y⟩) ::
        placeRow y extraGap (x + g.width + (if rest = [] then 0 else extraGap)) rest

/-- Placement of one built line at vertical offset `y`. -/
def layoutLine (align : Align) (maxWidth y : ℚ) (line : Line) (isLast : Bool) :
    List (Glyph × Pos) :=
  placeRow y (lineParams align maxWidth line isLast).2
    (lineParams align maxWidth line isLast).1 line.glyphs

/-- Outer line loop of `layoutEventsAligned` (source `part_000`, lines
505-529): empty lines only advance `y` by the line height; `isLast` holds on
the final element of the built line list. -/
def layoutLines (align : Align) (maxWidth lineHeight : ℚ) :
    List Line → ℚ → List (Glyph × Pos)
  | [], _ => []
  | line :: rest, y =>
      if line.glyphs = [] then
        layoutLines align maxWidth lineHeight rest (y + lineHeight)
      else
        layoutLine align maxWidth y line (rest = []) ++
          layoutLines align maxWidth lineHeight rest (y + lineHeight)

/-- Embedding of `layoutEventsAligned(container, events, align)` (source
`part_000`, lines 473-531), which positions every non-newline character of
the event list.  `maxWidth` is the container's measured content width,
`fontSize` the computed font size (the line height is `fontSize * 1.4`), and
`measure` the per-character width measurer.  Each returned entry pairs the
placed glyph with its `(x, y)` position, in event order. -/
def layoutEventsAligned (align : Align) (maxWidth fontSize : ℚ)
    (measure : Char → ℚ) (chars : List Char) : List (Glyph × Pos) :=
  layoutLines align maxWidth (fontSize * (14/10))
    (buildLines maxWidth measure chars [] 0) 0

lemma sumWidths_nil : sumWidths [] = 0 := rfl

lemma sumWidths_cons (g : Glyph) (gs : List Glyph) :
    sumWidths (g :: gs) = g.width + sumWidths gs := by
  simp [sumWidths]

lemma sumWidths_append (a b : List Glyph) :
    sumWidths (a ++ b) = sumWidths a + sumWidths b := by
  simp [sumWidths]

lemma sumWidths_nonneg (gs : List Glyph) (h : ∀ g ∈ gs, 0 ≤ g.width) :
    0 ≤ sumWidths gs := by
  apply List.sum_nonneg
  intro x hx
  simp only [List.mem_map] at hx
  obtain ⟨g, hg, rfl⟩ := hx
  exact h g hg

lemma buildLines_invariant (W : ℚ) (m : Char → ℚ) (hm : ∀ c, 0 ≤ m c) :
    ∀ (chars : List Char) (cur : List Glyph) (curW : ℚ),
      curW = sumWidths cur → (∀ g ∈ cur, 0 ≤ g.width) →
      (cur.length ≤ 1 ∨ curW ≤ W) →
      ∀ line ∈ buildLines W m chars cur curW,
        line.total = sumWidths line.glyphs ∧ (∀ g ∈ line.glyphs, 0 ≤ g.width) ∧
        (line.glyphs.length ≤ 1 ∨ line.total ≤ W) := by
  intro chars
  induction chars with
  | nil =>
      intro cur curW h1 h2 h3 line hline
      simp only [buildLines, List.mem_singleton] at hline
      subst hline
      exact ⟨h1, h2, h3⟩
  | cons c rest ih =>
      intro cur curW h1 h2 h3 line hline
      by_cases hc : c = '\n'
      · simp only [buildLines, if_pos hc, List.mem_cons] at hline
        rcases hline with hline | hline
        · subst hline; exact ⟨h1, h2, h3⟩
        · exact ih [] 0 (by simp [sumWidths]) (by simp) (Or.inl (by simp)) line hline
      · by_cases hbreak : cur ≠ [] ∧ W < curW + m c
        · simp only [buildLines, if_neg hc, if_pos hbreak, List.mem_cons] at hline
          rcases hline with hline | hline
          · subst hline; exact ⟨h1, h2, h3⟩
          · refine ih [⟨c, m c⟩] (m c) (by simp [sumWidths]) ?_ (Or.inl (by simp))
              line hline
            intro g hg
            simp only [List.mem_singleton] at hg
            subst hg
            exact hm c
        · simp only [buildLines, if_neg hc, if_neg hbreak] at hline
          refine ih (cur ++ [⟨c, m c⟩]) (curW + m c) ?_ ?_ ?_ line hline
          · rw [sumWidths_append, sumWidths_cons, sumWidths_nil, h1]; ring
          · intro g hg
            rcases List.mem_append.mp hg with hg | hg
            · exact h2 g hg
            · simp only [List.mem_singleton] at hg; subst hg; exact hm c
          · push_neg at hbreak
            by_cases hcur : cur = []
            · left; subst hcur; simp
            · right; exact hbreak hcur

lemma placeRow_bound (y e : ℚ) (he : 0 ≤ e) :
    ∀ (gs : List Glyph) (x : ℚ), (∀ g ∈ gs, 0 ≤ g.width) →
      ∀ gp ∈ placeRow y e x gs,
        x ≤ gp.2.x ∧
        gp.2.x + gp.1.width ≤ x + sumWidths gs + ((gs.length : ℚ) - 1) * e := by
  intro gs
  induction gs with
  | nil =>
      intro x hw gp hgp
      simp [placeRow] at hgp
  | cons g rest ih =>
      intro x hw gp hgp
      rw [placeRow] at hgp
      rcases List.mem_cons.mp hgp with h | h
      · subst h
        refine ⟨le_refl _, ?_⟩
        have hrest : 0 ≤ sumWidths rest :=
          sumWidths_nonneg rest (fun g' hg' => hw g' (List.mem_cons_of_mem _ hg'))
        have hn : (0 : ℚ) ≤ (rest.length : ℚ) := by positivity
        rw [sumWidths_cons]
        push_cast [List.length_cons]
        nlinarith
      · by_cases hr : rest = []
        · subst hr
          simp [placeRow] at h
        · rw [if_neg hr] at h
          obtain ⟨hlo, hhi⟩ :=
            ih (x + g.width + e) (fun g' hg' => hw g' (List.mem_cons_of_mem _ hg')) gp h
          have hgw : 0 ≤ g.width := hw g (List.mem_cons_self _ _)
          constructor
          · linarith
          · rw [sumWidths_cons]
            push_cast [List.length_cons]
            have hn1 : (1 : ℚ) ≤ (rest.length : ℚ) := by
              have : 1 ≤ rest.length := List.length_pos.mpr hr
              exact_mod_cast this
            nlinarith

lemma lineParams_bound (align : Align) (W : ℚ) (line : Line) (isLast : Bool)
    (hne : line.glyphs ≠ []) (hle : line.total ≤ W) :
    0 ≤ (lineParams align W line isLast).2 ∧
    (lineParams align W line isLast).1 + line.total +
      ((line.glyphs.length : ℚ) - 1) * (lineParams align W line isLast).2 ≤ W := by
  have hn1 : (1 : ℚ) ≤ (line.glyphs.length : ℚ) := by
    have : 1 ≤ line.glyphs.length := List.length_pos.mpr hne
    exact_mod_cast this
  cases align with
  | left => simp only [lineParams]; constructor <;> [norm_num; linarith]
  | center =>
      simp only [lineParams]
      have hmax : max 0 ((W - line.total) / 2) = (W - line.total) / 2 :=
        max_eq_right (by linarith)
      rw [hmax]
      constructor <;> [norm_num; linarith]
  | right =>
      simp only [lineParams]
      have hmax : max 0 (W - line.total) = W - line.total :=
        max_eq_right (by linarith)
      rw [hmax]
      constructor <;> [norm_num; linarith]
  | justify =>
      by_cases hcond : isLast = false ∧ 1 < line.glyphs.length
      · simp only [lineParams, if_pos hcond]
        have hn2 : (1 : ℚ) < (line.glyphs.length : ℚ) := by exact_mod_cast hcond.2
        have hpos : (0 : ℚ) < (line.glyphs.length : ℚ) - 1 := by linarith
        have hqnn : 0 ≤ (W - line.total) / ((line.glyphs.length : ℚ) - 1) :=
          div_nonneg (by linarith) (le_of_lt hpos)
        have hmax : max 0 ((W - line.total) / ((line.glyphs.length : ℚ) - 1)) =
            (W - line.total) / ((line.glyphs.length : ℚ) - 1) := max_eq_right hqnn
        rw [hmax]
        refine ⟨hqnn, ?_⟩
        rw [mul_comm, div_mul_cancel₀ _ (ne_of_gt hpos)]
        linarith
      · simp only [lineParams, if_neg hcond]
        constructor <;> [norm_num; linarith]

lemma lineParams_zero_of_overflow (align : Align) (W : ℚ) (line : Line)
    (isLast : Bool) (hgt : W < line.total) (hsingle : line.glyphs.length ≤ 1) :
    (lineParams align W line isLast).1 = 0 ∧
    (lineParams align W line isLast).2 = 0 := by
  cases align with
  | left => simp [lineParams]
  | center =>
      simp only [lineParams]
      exact ⟨max_eq_left (by linarith), trivial⟩
  | right =>
      simp only [lineParams]
      exact ⟨max_eq_left (by linarith), trivial⟩
  | justify =>
      have hcond : ¬ (isLast = false ∧ 1 < line.glyphs.length) := by
        rintro ⟨-, h⟩
        omega
      simp [lineParams, if_neg hcond]

lemma layoutLine_bound (align : Align) (W y : ℚ) (line : Line) (isLast : Bool)
    (ht : line.total = sumWidths line.glyphs)
    (hw : ∀ g ∈ line.glyphs, 0 ≤ g.width)
    (hinv : line.glyphs.length ≤ 1 ∨ line.total ≤ W) :
    ∀ gp ∈ layoutLine align W y line isLast,
      gp.2.x + gp.1.width ≤ W ∨ (gp.2.x = 0 ∧ W < gp.1.width) := by
  intro gp hgp
  rcases le_or_lt line.total W with hle | hgt
  · rcases hgs : line.glyphs with _ | ⟨g, rest⟩
    · rw [layoutLine, hgs] at hgp
      simp [placeRow] at hgp
    · left
      have hne : line.glyphs ≠ [] := by rw [hgs]; simp
      obtain ⟨he, hbound⟩ := lineParams_bound align W line isLast hne hle
      rw [layoutLine] at hgp
      obtain ⟨-, hhi⟩ := placeRow_bound y _ he line.glyphs _ hw gp hgp
      rw [← ht] at hhi
      linarith
  · have hsingle : line.glyphs.length ≤ 1 := by
      rcases hinv with h | h
      · exact h
      · linarith
    obtain ⟨hs0, he0⟩ := lineParams_zero_of_overflow align W line isLast hgt hsingle
    rcases hgs : line.glyphs with _ | ⟨g, rest⟩
    · rw [layoutLine, hgs] at hgp
      simp [placeRow] at hgp
    · have hrest : rest = [] := by
        rw [hgs] at hsingle
        simp at hsingle
        exact hsingle
      subst hrest
      rw [layoutLine, hgs, hs0, he0] at hgp
      simp only [placeRow, List.mem_singleton] at hgp
      subst hgp
      right
      refine ⟨rfl, ?_⟩
      have : line.total = g.width := by
        rw [ht, hgs, sumWidths_cons, sumWidths_nil]; ring
      linarith

lemma layoutLines_bound (align : Align) (W lh : ℚ) :
    ∀ (lines : List Line) (y : ℚ),
      (∀ line ∈ lines,
        line.total = sumWidths line.glyphs ∧ (∀ g ∈ line.glyphs, 0 ≤ g.width) ∧
        (line.glyphs.length ≤ 1 ∨ line.total ≤ W)) →
      ∀ gp ∈ layoutLines align W lh lines y,
        gp.2.x + gp.1.width ≤ W ∨ (gp.2.x = 0 ∧ W < gp.1.width) := by
  intro lines
  induction lines with
  | nil =>
      intro y h gp hgp
      simp [layoutLines] at hgp
  | cons line rest ih =>
      intro y h gp hgp
      rw [layoutLines] at hgp
      by_cases hempty : line.glyphs = []
      · rw [if_pos hempty] at hgp
        exact ih _ (fun l hl => h l (List.mem_cons_of_mem _ hl)) gp hgp
      · rw [if_neg hempty] at hgp
        rcases List.mem_append.mp hgp with hgp | hgp
        · obtain ⟨h1, h2, h3⟩ := h line (List.mem_cons_self _ _)
          exact layoutLine_bound align W y line _ h1 h2 h3 gp hgp
        · exact ih _ (fun l hl => h l (List.mem_cons_of_mem _ hl)) gp hgp

/-- Claim C3: in the layout produced by `layoutEventsAligned`, assuming every
measured glyph width is nonnegative, every placed glyph satisfies
`x + width ≤ maxWidth`, except that a glyph wider than the container is
placed at `x = 0` (it is then alone on its line, by the greedy line builder
that starts a new line exactly when the next character's width would
overflow the current one). -/
theorem layoutEventsAligned_wrap_correct (align : Align)
    (maxWidth fontSize : ℚ) (measure : Char → ℚ) (hm : ∀ c, 0 ≤ measure c)
    (chars : List Char) (gp : Glyph × Pos)
    (hgp : gp ∈ layoutEventsAligned align maxWidth fontSize measure chars) :
    gp.2.x + gp.1.width ≤ maxWidth ∨ (gp.2.x = 0 ∧ maxWidth < gp.1.width) := by
  have hinv := buildLines_invariant maxWidth measure hm chars [] 0
    (by simp [sumWidths]) (by simp) (Or.inl (by simp))
  exact layoutLines_bound align maxWidth _ _ 0 hinv gp hgp

/-- Witness for C3: in a 10-pixel-wide container with constant glyph width 4,
the first glyph of the three characters a, b, c ends at 4 less or equal 10. -/
theorem layoutEventsAligned_wrap_correct_witness :
    ((0 : ℚ) + 4 ≤ 10) ∨ ((0 : ℚ) = 0 ∧ (10 : ℚ) < 4) :=
  layoutEventsAligned_wrap_correct .left 10 1 (fun _ => 4)
    (fun _ => by norm_num) ['a', 'b', 'c'] (⟨'a', 4⟩, ⟨0, 0⟩) (by
      have h : layoutEventsAligned .left 10 1 (fun _ => 4) ['a', 'b', 'c'] =
          [(⟨'a', 4⟩, ⟨0, 0⟩), (⟨'b', 4⟩, ⟨4, 0⟩), (⟨'c', 4⟩, ⟨0, 14/10⟩)] := by
        norm_num [layoutEventsAligned, buildLines, layoutLines, layoutLine,
          lineParams, placeRow, List.cons_ne_nil,
          show ('a' : Char) ≠ '\n' from by decide,
          show ('b' : Char) ≠ '\n' from by decide,
          show ('c' : Char) ≠ '\n' from by decide]
      rw [h]
      exact List.mem_cons_self _ _)

lemma max_zero_div (a d : ℚ) (hd : 0 < d) : max 0 (a / d) = max 0 a / d := by
  rcases le_or_lt 0 a with h | h
  · rw [max_eq_right h, max_eq_right (div_nonneg h (le_of_lt hd))]
  · rw [max_eq_left (le_of_lt h), max_eq_left (le_of_lt (div_neg_of_neg_of_pos h hd)),
      zero_div]

lemma placeRow_consecutive (y e : ℚ) :
    ∀ (gs : List Glyph) (x : ℚ) (j : ℕ) (gp1 gp2 : Glyph × Pos),
      (placeRow y e x gs).get? j = some gp1 →
      (placeRow y e x gs).get? (j + 1) = some gp2 →
      gp2.2.x - gp1.2.x = gp1.1.width + e := by
  intro gs
  induction gs with
  | nil =>
      intro x j gp1 gp2 h1 h2
      simp [placeRow] at h1
  | cons g rest ih =>
      intro x j gp1 gp2 h1 h2
      rw [placeRow] at h1 h2
      cases j with
      | zero =>
          simp only [List.get?] at h1 h2
          cases rest with
          | nil => simp [placeRow] at h2
          | cons g2 r2 =>
              rw [if_neg (by simp : ¬ (g2 :: r2 : List Glyph) = [])] at h2
              rw [placeRow] at h2
              simp only [List.get?, Option.some.injEq] at h1 h2
              subst h1
              subst h2
              simp
              ring
      | succ n =>
          simp only [List.get?] at h1 h2
          cases rest with
          | nil => simp [placeRow] at h1
          | cons g2 r2 =>
              rw [if_neg (by simp : ¬ (g2 :: r2 : List Glyph) = [])] at h1 h2
              exact ih _ n gp1 gp2 h1 h2

/-- Claim C4: for a laid-out line (its `total` being the summed glyph widths)
with at least one glyph, center alignment starts the line at
`max 0 ((maxWidth - total) / 2)` and right alignment at
`max 0 (maxWidth - total)`; justify alignment on a non-final line with at
least two glyphs spreads the extra space `max 0 (maxWidth - total)` evenly
over the gaps, every consecutive pair of placed glyphs being separated by the
glyph width plus `max 0 (maxWidth - total) / (glyph count - 1)`; and on the
final line or a single-glyph line justify applies no adjustment, placing
glyphs exactly as left alignment does. -/
theorem layoutLine_alignment_offsets (align : Align) (maxWidth y : ℚ)
    (line : Line) (isLast : Bool)
    (ht : line.total = sumWidths line.glyphs) (hne : line.glyphs ≠ []) :
    (align = .center →
      ((layoutLine align maxWidth y line isLast).map (fun gp => gp.2.x)).head?
        = some (max 0 ((maxWidth - line.total) / 2)))
    ∧ (align = .right →
      ((layoutLine align maxWidth y line isLast).map (fun gp => gp.2.x)).head?
        = some (max 0 (maxWidth - line.total)))
    ∧ (align = .justify → isLast = false → 2 ≤ line.glyphs.length →
      ∀ (j : ℕ) (gp1 gp2 : Glyph × Pos),
        (layoutLine align maxWidth y line isLast).get? j = some gp1 →
        (layoutLine align maxWidth y line isLast).get? (j + 1) = some gp2 →
        gp2.2.x - gp1.2.x
          = gp1.1.width + max 0 (maxWidth - line.total) / ((line.glyphs.length : ℚ) - 1))
    ∧ (align = .justify → (isLast = true ∨ line.glyphs.length ≤ 1) →
      layoutLine align maxWidth y line isLast = layoutLine .left maxWidth y line isLast) := by
  obtain ⟨g, rest, hgs⟩ : ∃ g rest, line.glyphs = g :: rest := by
    cases h : line.glyphs with
    | nil => exact absurd h hne
    | cons a l => exact ⟨a, l, rfl⟩
  refine ⟨?_, ?_, ?_, ?_⟩
  · rintro rfl
    rw [layoutLine, hgs, placeRow]
    simp [lineParams]
  · rintro rfl
    rw [layoutLine, hgs, placeRow]
    simp [lineParams]
  · rintro rfl hlast hlen j gp1 gp2 h1 h2
    have hcond : isLast = false ∧ 1 < line.glyphs.length := ⟨hlast, by omega⟩
    have hpos : (0 : ℚ) < (line.glyphs.length : ℚ) - 1 := by
      have : (1 : ℚ) < (line.glyphs.length : ℚ) := by exact_mod_cast hcond.2
      linarith
    have he : (lineParams .justify maxWidth line isLast).2
        = max 0 (maxWidth - line.total) / ((line.glyphs.length : ℚ) - 1) := by
      simp only [lineParams, if_pos hcond]
      exact max_zero_div _ _ hpos
    rw [layoutLine] at h1 h2
    have := placeRow_consecutive y _ line.glyphs _ j gp1 gp2 h1 h2
    rw [he] at this
    exact this
  · rintro rfl hcase
    have hcond : ¬ (isLast = false ∧ 1 < line.glyphs.length) := by
      rintro ⟨hfalse, hgt⟩
      rcases hcase with h | h
      · rw [h] at hfalse; cases hfalse
      · omega
    rw [layoutLine, layoutLine]
    simp only [lineParams, if_neg hcond]

/-- Witness for C4 on a concrete two-glyph justified line of total width 3 in
a 7-pixel container: the second glyph starts at the first glyph's width 1 plus
the evenly distributed extra gap 4. -/
theorem layoutLine_alignment_offsets_witness :
    (5 : ℚ) - 0 = (1 : ℚ) + max 0 ((7 : ℚ) - 3) / ((2 : ℚ) - 1) := by
  have h := (layoutLine_alignment_offsets .justify 7 0 ⟨[⟨'a', 1⟩, ⟨'b', 2⟩], 3⟩
    false (by norm_num [sumWidths]) (by simp)).2.2.1 rfl rfl (by simp)
    0 (⟨'a', 1⟩, ⟨0, 0⟩) (⟨'b', 2⟩, ⟨5, 0⟩) (by
      norm_num [layoutLine, lineParams, placeRow, List.cons_ne_nil])
    (by norm_num [layoutLine, lineParams, placeRow, List.cons_ne_nil])
  simpa using h

/-- Number of non-newline characters, i.e. of rendered glyphs. -/
def countLetters (chars : List Char) : ℕ :=
  (chars.filter (fun c => !(c == '\n'))).length

lemma placeRow_length (y e : ℚ) :
    ∀ (gs : List Glyph) (x : ℚ), (placeRow y e x gs).length = gs.length := by
  intro gs
  induction gs with
  | nil => intro x; simp [placeRow]
  | cons g rest ih => intro x; rw [placeRow]; simp [ih]

lemma layoutLines_length (align : Align) (W lh : ℚ) :
    ∀ (lines : List Line) (y : ℚ),
      (layoutLines align W lh lines y).length
        = ((lines.map (fun l => l.glyphs.length)).sum) := by
  intro lines
  induction lines with
  | nil => intro y; simp [layoutLines]
  | cons line rest ih =>
      intro y
      rw [layoutLines]
      by_cases hempty : line.glyphs = []
      · rw [if_pos hempty]
        simp [ih, hempty]
      · rw [if_neg hempty]
        simp [layoutLine, placeRow_length, ih]

lemma buildLines_count (W : ℚ) (m : Char → ℚ) :
    ∀ (chars : List Char) (cur : List Glyph) (curW : ℚ),
      ((buildLines W m chars cur curW).map (fun l => l.glyphs.length)).sum
        = cur.length + countLetters chars := by
  intro chars
  induction chars with
  | nil =>
      intro cur curW
      simp [buildLines, countLetters]
  | cons c rest ih =>
      intro cur curW
      by_cases hc : c = '\n'
      · rw [buildLines, if_pos hc]
        simp only [List.map_cons, List.sum_cons, ih]
        subst hc
        simp [countLetters]
      · rw [buildLines]
        rw [if_neg hc]
        have hcount : countLetters (c :: rest) = countLetters rest + 1 := by
          simp [countLetters, List.filter_cons, hc]
        by_cases hbreak : cur ≠ [] ∧ W < curW + m c
        · rw [if_pos hbreak]
          simp only [List.map_cons, List.sum_cons, ih]
          simp [hcount]
          omega
        · rw [if_neg hbreak]
          rw [ih]
          simp [hcount]
          omega

lemma layoutEventsAligned_length (align : Align) (W fs : ℚ) (m : Char → ℚ)
    (chars : List Char) :
    (layoutEventsAligned align W fs m chars).length = countLetters chars := by
  rw [layoutEventsAligned, layoutLines_length, buildLines_count]
  simp

/-- One recorded keystroke event of `state.events` (source `part_000`, line
20): character, derived note (null for space and newline), timestamp on the
audio clock, and last reflowed layout position. -/
structure Event where
  char : Char
  note : Option String
  time : ℚ
  x : ℚ
  y : ℚ
deriving DecidableEq

/-- The position-update loop of `handleKeyDown` (source `part_000`, lines
611-639): walk the events in order, skip newline events, and overwrite each
rendered event's stored `x`, `y` with the next computed layout position
(events beyond the position list are left untouched, mirroring the
`letterIndex < allPositions.length` guard). -/
def applyPositions : List Event → List Pos → List Event
  | [], _ => []
  | e :: rest, [] => e :: applyPositions rest []
  | e :: rest, p :: pt =>
      if e.char = '\n' then e :: applyPositions rest (p :: pt)
      else { e with x := p.x, y := p.y } :: applyPositions rest pt

/-- One full reflow under an alignment mode: recompute the aligned layout of
the current event characters with `layoutEventsAligned` and store the
resulting positions back into the events (as `handleKeyDown` and
`reflowExistingLetters` do after font, alignment, or delete changes). -/
def applyAlign (align : Align) (maxWidth fontSize : ℚ) (measure : Char → ℚ)
    (evs : List Event) : List Event :=
  applyPositions evs
    ((layoutEventsAligned align maxWidth fontSize measure
      (evs.map (fun e => e.char))).map (fun gp => gp.2))

lemma applyPositions_chars :
    ∀ (evs : List Event) (ps : List Pos),
      (applyPositions evs ps).map (fun e => e.char) = evs.map (fun e => e.char) := by
  intro evs
  induction evs with
  | nil => intro ps; simp [applyPositions]
  | cons e rest ih =>
      intro ps
      cases ps with
      | nil => simp [applyPositions, ih]
      | cons p pt =>
          by_cases hc : e.char = '\n'
          · simp [applyPositions, if_pos hc, ih]
          · simp [applyPositions, if_neg hc, ih]

lemma applyPositions_of_no_letters :
    ∀ (evs : List Event) (ps : List Pos),
      (evs.filter (fun e => !(e.char == '\n'))).length = 0 →
      applyPositions evs ps = evs := by
  intro evs
  induction evs with
  | nil => intro ps h; simp [applyPositions]
  | cons e rest ih =>
      intro ps h
      by_cases hc : e.char = '\n'
      · have hrest : (rest.filter (fun e => !(e.char == '\n'))).length = 0 := by
          simpa [List.filter_cons, hc] using h
        cases ps with
        | nil => simp [applyPositions, ih _ hrest]
        | cons p pt => simp [applyPositions, if_pos hc, ih _ hrest]
      · exfalso
        simp [List.filter_cons, hc] at h

lemma applyPositions_override :
    ∀ (evs : List Event) (ps1 ps2 : List Pos),
      (evs.filter (fun e => !(e.char == '\n'))).length ≤ ps2.length →
      applyPositions (applyPositions evs ps1) ps2 = applyPositions evs ps2 := by
  intro evs
  induction evs with
  | nil => intro ps1 ps2 h; simp [applyPositions]
  | cons e rest ih =>
      intro ps1 ps2 h
      by_cases hzero : ((e :: rest).filter (fun e => !(e.char == '\n'))).length = 0
      · rw [applyPositions_of_no_letters _ ps1 hzero]
      · by_cases hc : e.char = '\n'
        · have hrest : (rest.filter (fun e => !(e.char == '\n'))).length ≤ ps2.length := by
            simpa [List.filter_cons, hc] using h
          cases ps2 with
          | nil =>
              exfalso
              apply hzero
              simpa using h
          | cons p2 t2 =>
              cases ps1 with
              | nil =>
                  simp only [applyPositions, if_pos hc]
                  rw [ih [] (p2 :: t2) hrest]
              | cons p1 t1 =>
                  simp only [applyPositions, if_pos hc]
                  rw [ih (p1 :: t1) (p2 :: t2) hrest]
        · have hcount : ((e :: rest).filter (fun e => !(e.char == '\n'))).length
              = (rest.filter (fun e => !(e.char == '\n'))).length + 1 := by
            simp [List.filter_cons, hc]
          cases ps2 with
          | nil =>
              exfalso
              apply hzero
              simpa using h
          | cons p2 t2 =>
              have hrest : (rest.filter (fun e => !(e.char == '\n'))).length ≤ t2.length := by
                rw [hcount] at h
                simpa using h
              cases ps1 with
              | nil =>
                  simp only [applyPositions, if_neg hc]
                  rw [ih [] t2 hrest]
              | cons p1 t1 =>
                  simp only [applyPositions, if_neg hc]
                  rw [ih t1 t2 hrest]

lemma countLetters_map_char (evs : List Event) :
    countLetters (evs.map (fun e => e.char))
      = (evs.filter (fun e => !(e.char == '\n'))).length := by
  induction evs with
  | nil => simp [countLetters]
  | cons e rest ih =>
      by_cases hc : e.char = '\n'
      · simp [countLetters, List.filter_cons, hc] at ih ⊢
        exact ih
      · simp [countLetters, List.filter_cons, hc] at ih ⊢
        exact ih

/-- Claim C5: layout is a pure function of the event characters and the
alignment mode.  Reapplying any reflow on top of an earlier reflow yields
exactly the positions of the later reflow alone, bit for bit; in particular
(taking `b = .left`) switching the alignment away from left and back restores
the original left-mode positions, and (taking `b = a`) reflow is
idempotent. -/
theorem layout_roundtrip_pure (a b : Align) (maxWidth fontSize : ℚ)
    (measure : Char → ℚ) (evs : List Event) :
    applyAlign b maxWidth fontSize measure (applyAlign a maxWidth fontSize measure evs)
      = applyAlign b maxWidth fontSize measure evs := by
  unfold applyAlign
  rw [applyPositions_chars]
  apply applyPositions_override
  rw [List.length_map, layoutEventsAligned_length, countLetters_map_char]

/-- Witness for C5 on a concrete two-event list: centering and then switching
back to left reproduces the left-mode reflow exactly. -/
theorem layout_roundtrip_pure_witness :
    applyAlign .left 10 1 (fun _ => 4)
        (applyAlign .center 10 1 (fun _ => 4)
          [⟨'a', some "C4", 0, 0, 0⟩, ⟨'b', some "D4", 1, 0, 0⟩])
      = applyAlign .left 10 1 (fun _ => 4)
          [⟨'a', some "C4", 0, 0, 0⟩, ⟨'b', some "D4", 1, 0, 0⟩] :=
  layout_roundtrip_pure .center .left 10 1 (fun _ => 4)
    [⟨'a', some "C4", 0, 0, 0⟩, ⟨'b', some "D4", 1, 0, 0⟩]

/-- The 26 lowercase letters, in the order of the `letters` string of
`buildKeyToNote` (source `part_000`, line 81). -/
def letters : List Char :=
  ['a', 'b', 'c', 'd', 'e', 'f', 'g', 'h', 'i', 'j', 'k', 'l', 'm',
   'n', 'o', 'p', 'q', 'r', 's', 't', 'u', 'v', 'w', 'x', 'y', 'z']

/-- The `majorC` pitch pool (source `part_000`, line 75). -/
def majorC : List String := ["C4", "D4", "E4", "F4", "G4", "A4", "B4", "C5"]

/-- The `minorA` pitch pool (source `part_000`, line 76). -/
def minorA : List String := ["A3", "B3", "C4", "D4", "E4", "F4", "G4", "A4"]

/-- The `pentatonicC` pitch pool (source `part_000`, line 77). -/
def pentatonicC : List String := ["C4", "D4", "E4", "G4", "A4", "C5"]

/-- Lookup in the `palettes` object (source `part_000`, lines 74-78): only the
three declared palette names have pools. -/
def palettesLookup (name : String) : Option (List String) :=
  if name = "majorC" then some majorC
  else if name = "minorA" then some minorA
  else if name = "pentatonicC" then some pentatonicC
  else none

/-- The pool chosen by `buildKeyToNote` (source `part_000`, line 82):
`palettes[paletteName] || palettes.majorC`, i.e. the named pool with `majorC`
as fallback for unknown names. -/
def poolFor (name : String) : List String :=
  (palettesLookup name).getD majorC

/-- The mapping object built from a pool: the loop of `buildKeyToNote`
(source `part_000`, lines 84-89) assigns the i-th letter the pool entry at
index `i % pool.length`, then maps space and newline to null. -/
def keyMapFromPool (pool : List String) : List (Char × Option String) :=
  (letters.enum.map (fun p => (p.2, pool.get? (p.1 % pool.length))))
    ++ [(' ', none), ('\n', none)]

/-- Embedding of `buildKeyToNote(paletteName)` (source `part_000`, lines
80-90 and `app.js`, lines 61-71). -/
def buildKeyToNote (name : String) : List (Char × Option String) :=
  keyMapFromPool (poolFor name)

/-- Reading a key of the built mapping as `handleKeyDown` does (source
`part_000`, line 574): `state.keyToNote[lower] ?? null`, so an absent key and
a stored null both yield no note. -/
def lookupNote (name : String) (c : Char) : Option String :=
  ((buildKeyToNote name).lookup c).join

lemma poolFor_cases (name : String) :
    poolFor name = majorC ∨ poolFor name = minorA ∨ poolFor name = pentatonicC := by
  rw [poolFor, palettesLookup]
  by_cases h1 : name = "majorC"
  · simp [h1]
  · by_cases h2 : name = "minorA"
    · simp [h1, h2]
    · by_cases h3 : name = "pentatonicC"
      · simp [h1, h2, h3]
      · simp [h1, h2, h3]

/-- Claim C6: the key-to-note mapping is a pure function of the palette name
(it is a Lean function, hence deterministic with no hidden state); for every
palette name it assigns the i-th lowercase letter (i = 0..25) the pitch at
index `i mod pool size` of the palette's ordered pool, and it always maps the
space and newline characters to no note. -/
theorem buildKeyToNote_assignment (name : String) (i : Fin 26) :
    lookupNote name (letters.get ⟨i.1, i.2⟩)
      = (poolFor name).get? (i.1 % (poolFor name).length)
    ∧ lookupNote name ' ' = none
    ∧ lookupNote name '\n' = none := by
  have h := poolFor_cases name
  rcases h with h | h | h <;>
    · simp only [lookupNote, buildKeyToNote, h]
      revert i
      decide

/-- Witness for C6: with the `majorC` palette the third letter c maps to E4,
and space and newline are silent. -/
theorem buildKeyToNote_assignment_witness :
    lookupNote "majorC" 'c' = some "E4"
    ∧ lookupNote "majorC" ' ' = none
    ∧ lookupNote "majorC" '\n' = none :=
  buildKeyToNote_assignment "majorC" ⟨2, by norm_num⟩

/-- Counterexample to C7 as stated: with a zero-width container, wrapping is
not disabled.  Typing the two-letter line a b (no newline, both of width 1,
font size 5 so the line height is 7) places the two glyphs at different
vertical offsets 0 and 7: the second character was wrapped onto a new line,
instead of staying on the same line as the claim requires. -/
theorem zero_width_wrap_counterexample :
    ((layoutEventsAligned .left 0 5 (fun _ => 1) ['a', 'b']).map
        (fun gp => gp.2.y) = [0, 7])
    ∧ (0 : ℚ) ≠ 7 := by
  constructor
  · norm_num [layoutEventsAligned, buildLines, layoutLines, layoutLine,
      lineParams, placeRow, List.cons_ne_nil,
      show ('a' : Char) ≠ '\n' from by decide,
      show ('b' : Char) ≠ '\n' from by decide]
  · norm_num

lemma buildLines_zero_width_singleton (m : Char → ℚ) (hm : ∀ c, 0 < m c) :
    ∀ (chars : List Char) (cur : List Glyph) (curW : ℚ),
      cur.length ≤ 1 → 0 ≤ curW →
      ∀ line ∈ buildLines 0 m chars cur curW, line.glyphs.length ≤ 1 := by
  intro chars
  induction chars with
  | nil =>
      intro cur curW h1 h2 line hline
      simp only [buildLines, List.mem_singleton] at hline
      subst hline
      exact h1
  | cons c rest ih =>
      intro cur curW h1 h2 line hline
      by_cases hc : c = '\n'
      · simp only [buildLines, if_pos hc, List.mem_cons] at hline
        rcases hline with hline | hline
        · subst hline; exact h1
        · exact ih [] 0 (by simp) le_rfl line hline
      · by_cases hcur : cur = []
        · have hcond : ¬ (cur ≠ [] ∧ (0 : ℚ) < curW + m c) := by
            rintro ⟨hne, -⟩
            exact hne hcur
          simp only [buildLines, if_neg hc, if_neg hcond] at hline
          refine ih (cur ++ [⟨c, m c⟩]) (curW + m c) ?_ ?_ line hline
          · subst hcur; simp
          · have := hm c; linarith
        · have hcond : cur ≠ [] ∧ (0 : ℚ) < curW + m c := by
            refine ⟨hcur, ?_⟩
            have := hm c
            linarith
          simp only [buildLines, if_neg hc, if_pos hcond, List.mem_cons] at hline
          rcases hline with hline | hline
          · subst hline; exact h1
          · refine ih [⟨c, m c⟩] (m c) (by simp) ?_ line hline
            exact le_of_lt (hm c)

lemma lineParams_zero_width (align : Align) (line : Line) (isLast : Bool)
    (htot : 0 ≤ line.total) (hsingle : line.glyphs.length ≤ 1) :
    (lineParams align 0 line isLast).1 = 0 ∧
    (lineParams align 0 line isLast).2 = 0 := by
  cases align with
  | left => simp [lineParams]
  | center =>
      simp only [lineParams]
      exact ⟨max_eq_left (by linarith), trivial⟩
  | right =>
      simp only [lineParams]
      exact ⟨max_eq_left (by linarith), trivial⟩
  | justify =>
      have hcond : ¬ (isLast = false ∧ 1 < line.glyphs.length) := by
        rintro ⟨-, h⟩
        omega
      simp [lineParams, if_neg hcond]

lemma layoutLines_zero_width_x (align : Align) (lh : ℚ) :
    ∀ (lines : List Line) (y : ℚ),
      (∀ line ∈ lines, line.glyphs.length ≤ 1 ∧ 0 ≤ line.total) →
      ∀ gp ∈ layoutLines align 0 lh lines y, gp.2.x = 0 := by
  intro lines
  induction lines with
  | nil =>
      intro y h gp hgp
      simp [layoutLines] at hgp
  | cons line rest ih =>
      intro y h gp hgp
      rw [layoutLines] at hgp
      by_cases hempty : line.glyphs = []
      · rw [if_pos hempty] at hgp
        exact ih _ (fun l hl => h l (List.mem_cons_of_mem _ hl)) gp hgp
      · rw [if_neg hempty] at hgp
        rcases List.mem_append.mp hgp with hgp | hgp
        · obtain ⟨hsingle, htot⟩ := h line (List.mem_cons_self _ _)
          obtain ⟨g, rest2, hgs⟩ : ∃ g rest2, line.glyphs = g :: rest2 := by
            cases hx : line.glyphs with
            | nil => exact absurd hx hempty
            | cons a l => exact ⟨a, l, rfl⟩
          have hrest2 : rest2 = [] := by
            rw [hgs] at hsingle
            simp at hsingle
            exact hsingle
          obtain ⟨hs0, he0⟩ := lineParams_zero_width align line _ htot hsingle
          rw [layoutLine, hgs, hrest2, hs0, he0] at hgp
          simp only [placeRow, List.mem_singleton] at hgp
          subst hgp
          rfl
        · exact ih _ (fun l hl => h l (List.mem_cons_of_mem _ hl)) gp hgp

/-- Claim C7 as amended: with a zero measured container width, layout neither
divides by zero nor loops forever: it is a total function that still places
every non-newline character exactly once.  However wrapping is not disabled:
when every measured width is positive, every built line carries at most one
glyph (each character is wrapped onto its own line) and every glyph is placed
at x = 0. -/
theorem zero_width_layout_total (align : Align) (fontSize : ℚ)
    (measure : Char → ℚ) (hm : ∀ c, 0 < measure c) (chars : List Char) :
    (∀ line ∈ buildLines 0 measure chars [] 0, line.glyphs.length ≤ 1)
    ∧ (layoutEventsAligned align 0 fontSize measure chars).length
        = countLetters chars
    ∧ ∀ gp ∈ layoutEventsAligned align 0 fontSize measure chars, gp.2.x = 0 := by
  have hm' : ∀ c, 0 ≤ measure c := fun c => le_of_lt (hm c)
  have hsing := buildLines_zero_width_singleton measure hm chars [] 0 (by simp) le_rfl
  refine ⟨hsing, layoutEventsAligned_length _ _ _ _ _, ?_⟩
  have hinv := buildLines_invariant 0 measure hm' chars [] 0
    (by simp [sumWidths]) (by simp) (Or.inl (by simp))
  rw [layoutEventsAligned]
  apply layoutLines_zero_width_x
  intro line hline
  obtain ⟨h1, h2, -⟩ := hinv line hline
  exact ⟨hsing line hline, by rw [h1]; exact sumWidths_nonneg _ h2⟩

/-- Witness for the amended C7 on the two characters a b with width 1: both
end up on their own line at x = 0, and both are placed. -/
theorem zero_width_layout_total_witness :
    (∀ line ∈ buildLines 0 (fun _ => (1 : ℚ)) ['a', 'b'] [] 0,
      line.glyphs.length ≤ 1)
    ∧ (layoutEventsAligned .left 0 5 (fun _ => (1 : ℚ)) ['a', 'b']).length
        = countLetters ['a', 'b']
    ∧ ∀ gp ∈ layoutEventsAligned .left 0 5 (fun _ => (1 : ℚ)) ['a', 'b'],
        gp.2.x = 0 :=
  zero_width_layout_total .left 5 (fun _ => 1) (fun _ => by norm_num) ['a', 'b']

/-- The state touched by `deleteLast`: the recorded event log and the ordered
list of rendered letter DOM nodes (one per non-newline event), each node
identified here by its character. -/
structure AppState where
  events : List Event
  domLetters : List Char
deriving DecidableEq

/-- Whether the last recorded event is a newline (vacuously true on an empty
log, which `deleteLast` never reaches past its guard). -/
def lastIsNewline (evs : List Event) : Bool :=
  match evs.getLast? with
  | some e => e.char == '\n'
  | none => true

/-- Embedding of `deleteLast()` (source `part_000`, lines 649-672 and
`app.js`, lines 437-457): an empty event log returns immediately with nothing
modified; otherwise the last rendered letter node is removed when the last
event is not a newline, and the last event is popped from the log. -/
def deleteLast (s : AppState) : AppState :=
  if s.events = [] then s
  else
    { events := s.events.dropLast,
      domLetters := if lastIsNewline s.events then s.domLetters
                    else s.domLetters.dropLast }

/-- Claim C9: `deleteLast` on an empty event log is a no-op returning the
state unchanged (event log and DOM letter list untouched); on a non-empty log
it removes exactly the last event, removing the last DOM letter exactly when
that event is not a newline, and every preceding event (character, note,
timestamp, position) is left unchanged. -/
theorem deleteLast_spec (s : AppState) :
    (s.events = [] → deleteLast s = s)
    ∧ (∀ (es : List Event) (e : Event), s.events = es ++ [e] →
        (deleteLast s).events = es
        ∧ (deleteLast s).domLetters
            = (if e.char = '\n' then s.domLetters else s.domLetters.dropLast)
        ∧ ∀ i, i < es.length → (deleteLast s).events[i]? = s.events[i]?) := by
  constructor
  · intro h
    rw [deleteLast, if_pos h]
  · intro es e hsev
    have hne : s.events ≠ [] := by
      rw [hsev]
      simp
    have hlast : s.events.getLast? = some e := by
      rw [hsev]
      exact List.getLast?_concat _
    have hdrop : s.events.dropLast = es := by
      rw [hsev]
      exact List.dropLast_concat
    have hnl : lastIsNewline s.events = (e.char == '\n') := by
      rw [lastIsNewline, hlast]
    refine ⟨?_, ?_, ?_⟩
    · rw [deleteLast, if_neg hne]
      exact hdrop
    · rw [deleteLast, if_neg hne]
      simp only [hnl]
      by_cases hc : e.char = '\n'
      · simp [hc]
      · simp [hc]
    · intro i hi
      rw [deleteLast, if_neg hne, hdrop, hsev]
      exact (List.getElem?_append_left hi).symm

/-- Witness for C9: deleting from the two-event log removes exactly the
second event and its rendered letter, keeping the first event intact; and on
the empty state the operation is the identity. -/
theorem deleteLast_spec_witness :
    (deleteLast ⟨[⟨'a', some "C4", 0, 0, 0⟩, ⟨'b', some "D4", 1, 4, 0⟩],
        ['a', 'b']⟩).events = [⟨'a', some "C4", 0, 0, 0⟩]
    ∧ (deleteLast ⟨[⟨'a', some "C4", 0, 0, 0⟩, ⟨'b', some "D4", 1, 4, 0⟩],
        ['a', 'b']⟩).domLetters
        = (if ('b' : Char) = '\n' then ['a', 'b'] else (['a', 'b'] : List Char).dropLast) := by
  have h := (deleteLast_spec ⟨[⟨'a', some "C4", 0, 0, 0⟩, ⟨'b', some "D4", 1, 4, 0⟩],
    ['a', 'b']⟩).2 [⟨'a', some "C4", 0, 0, 0⟩] ⟨'b', some "D4", 1, 4, 0⟩ rfl
  exact ⟨h.1, h.2.1⟩

/-- The property names every plain JS object inherits from
`Object.prototype` (the ES standard set).  A bracket lookup
`palettes[paletteName]` with one of these names returns the inherited member
(a function, or `Object.prototype` itself for the last entry), which is
truthy, so the `|| palettes.majorC` fallback of `buildKeyToNote` (source
`part_000`, line 82) does not fire for them. -/
def objectPrototypeKeys : List String :=
  ["constructor", "hasOwnProperty", "isPrototypeOf", "propertyIsEnumerable",
   "toLocaleString", "toString", "valueOf", "__proto__", "__defineGetter__",
   "__defineSetter__", "__lookupGetter__", "__lookupSetter__"]

/-- Value of the JS expression `palettes[paletteName] || palettes.majorC`
under full bracket-lookup semantics: either one of the own array pools (own
key, or the falsy-undefined fallback to `majorC`), or a truthy non-array
member inherited from `Object.prototype`. -/
inductive PoolRef
  | ownPool (pool : List String)
  | protoMember
deriving DecidableEq

/-- Embedding of `palettes[paletteName] || palettes.majorC` (source
`part_000`, line 82) with the prototype chain included: the three own keys
return their pools; a name of an inherited `Object.prototype` member returns
that truthy member, bypassing the fallback; any other name gives `undefined`,
which is falsy, so `majorC` is used. -/
def poolRefFor (name : String) : PoolRef :=
  if name = "majorC" then .ownPool majorC
  else if name = "minorA" then .ownPool minorA
  else if name = "pentatonicC" then .ownPool pentatonicC
  else if name ∈ objectPrototypeKeys then .protoMember
  else .ownPool majorC

/-- The JS value `pool[i % pool.length]` of the `buildKeyToNote` loop
(source `part_000`, line 85).  On an array pool this is the cyclic pool
entry.  On an inherited `Object.prototype` member it is `undefined` for every
index: the member is a function of arity 0 or 1, or `Object.prototype`
itself, so `i % pool.length` is `NaN` or `0` and the member has no such
numeric own property. -/
def poolIndex (p : PoolRef) (i : ℕ) : Option String :=
  match p with
  | .ownPool pool => pool.get? (i % pool.length)
  | .protoMember => none

/-- The mapping object built over a looked-up pool value: the loop of
`buildKeyToNote` (source `part_000`, lines 84-89) followed by the null
entries for space and newline. -/
def keyMapFromRef (p : PoolRef) : List (Char × Option String) :=
  (letters.enum.map (fun q => (q.2, poolIndex p q.1)))
    ++ [(' ', none), ('\n', none)]

/-- `buildKeyToNote(paletteName)` (source `part_000`, lines 80-90) under full
JS bracket-lookup semantics, prototype chain included. -/
def buildKeyToNoteJS (name : String) : List (Char × Option String) :=
  keyMapFromRef (poolRefFor name)

/-- Reading a key of the built mapping as `handleKeyDown` does (source
`part_000`, line 574): `state.keyToNote[lower] ?? null`. -/
def lookupNoteJS (name : String) (c : Char) : Option String :=
  ((buildKeyToNoteJS name).lookup c).join

lemma poolRefFor_cases (name : String) :
    poolRefFor name = .ownPool majorC ∨ poolRefFor name = .ownPool minorA ∨
    poolRefFor name = .ownPool pentatonicC ∨ poolRefFor name = .protoMember := by
  rw [poolRefFor]
  by_cases h1 : name = "majorC"
  · simp [h1]
  · by_cases h2 : name = "minorA"
    · simp [h1, h2]
    · by_cases h3 : name = "pentatonicC"
      · simp [h1, h2, h3]
      · by_cases h4 : name ∈ objectPrototypeKeys
        · simp [h1, h2, h3, h4]
        · simp [h1, h2, h3, h4]

/-- Counterexample to C10 as stated: for the input string toString (an
inherited `Object.prototype` member name, reachable through the imported
`data.palette`), the bracket lookup returns the truthy inherited function, so
the `majorC` fallback is not used and the letter a receives no note, against
the claim that every unknown name falls back to `majorC` and every letter
always gets a note. -/
theorem buildKeyToNoteJS_proto_counterexample :
    poolRefFor "toString" = PoolRef.protoMember
    ∧ poolRefFor "toString" ≠ PoolRef.ownPool majorC
    ∧ lookupNoteJS "toString" 'a' = none := by
  refine ⟨by decide, by decide, ?_⟩
  decide

/-- Claim C10 as amended: building the key-to-note mapping is total and never
fails for every input string, and space and newline always map to no note.
The `majorC` fallback and the 26 guaranteed letter notes hold exactly for
names that are not inherited `Object.prototype` member names: for a name that
is neither a declared palette nor such a member, the pool is `majorC` and
every lowercase letter receives a note; for an inherited member name
(constructor, toString, valueOf, ...) the truthy inherited value bypasses the
fallback and all 26 letters map to no note. -/
theorem buildKeyToNoteJS_total_fallback (name : String) :
    (name ≠ "majorC" → name ≠ "minorA" → name ≠ "pentatonicC" →
      name ∉ objectPrototypeKeys → poolRefFor name = .ownPool majorC)
    ∧ (name ∉ objectPrototypeKeys →
      ∀ i : Fin 26, (lookupNoteJS name (letters.get ⟨i.1, i.2⟩)).isSome = true)
    ∧ (name ∈ objectPrototypeKeys →
      ∀ i : Fin 26, lookupNoteJS name (letters.get ⟨i.1, i.2⟩) = none)
    ∧ lookupNoteJS name ' ' = none
    ∧ lookupNoteJS name '\n' = none := by
  refine ⟨?_, ?_, ?_, ?_, ?_⟩
  · intro h1 h2 h3 h4
    rw [poolRefFor]
    simp [h1, h2, h3, h4]
  · intro h4 i
    have hcases : poolRefFor name = .ownPool majorC ∨
        poolRefFor name = .ownPool minorA ∨
        poolRefFor name = .ownPool pentatonicC := by
      rw [poolRefFor]
      by_cases h1 : name = "majorC"
      · simp [h1]
      · by_cases h2 : name = "minorA"
        · simp [h1, h2]
        · by_cases h3 : name = "pentatonicC"
          · simp [h1, h2, h3]
          · simp [h1, h2, h3, h4]
    rcases hcases with h | h | h <;>
      · simp only [lookupNoteJS, buildKeyToNoteJS, h]
        revert i
        decide
  · intro h4 i
    have hproto : poolRefFor name = .protoMember := by
      have hn1 : name ≠ "majorC" := by rintro rfl; revert h4; decide
      have hn2 : name ≠ "minorA" := by rintro rfl; revert h4; decide
      have hn3 : name ≠ "pentatonicC" := by rintro rfl; revert h4; decide
      rw [poolRefFor]
      simp [hn1, hn2, hn3, h4]
    simp only [lookupNoteJS, buildKeyToNoteJS, hproto]
    revert i
    decide
  · rcases poolRefFor_cases name with h | h | h | h <;>
      · simp only [lookupNoteJS, buildKeyToNoteJS, h]
        decide
  · rcases poolRefFor_cases name with h | h | h | h <;>
      · simp only [lookupNoteJS, buildKeyToNoteJS, h]
        decide

/-- Witness for the amended C10: the unknown palette name string nope is not
an inherited member name, so it falls back to the majorC pool, the letter a
gets a note, and space stays silent. -/
theorem buildKeyToNoteJS_total_fallback_witness :
    poolRefFor "nope" = PoolRef.ownPool majorC
    ∧ (lookupNoteJS "nope" 'a').isSome = true
    ∧ lookupNoteJS "nope" ' ' = none :=
  ⟨(buildKeyToNoteJS_total_fallback "nope").1 (by decide) (by decide)
      (by decide) (by decide),
   (buildKeyToNoteJS_total_fallback "nope").2.1 (by decide) ⟨0, by norm_num⟩,
   (buildKeyToNoteJS_total_fallback "nope").2.2.2.1⟩
